import Mathlib

/-!
Verification of the in-memory analytical query engine of the Moltbook
analysis console (`src/app.js`).  The JavaScript `DataService` object and the
selection / graph handlers are shallowly embedded as pure Lean functions:

* JS arrays become `List`, JS `Map` grouping becomes ordered association
  lists built in insertion order;
* JS numbers are embedded as `Nat` for the integer count fields and as `ℚ`
  for coordinate / weight arithmetic (the code performs exact comparisons on
  these, and all claims are stated over exact arithmetic);
* `Array.prototype.sort`, which is stable, is embedded as the verified
  stable `List.mergeSort` with the comparator translated to a boolean `le`;
* JS `Map.get` over the unique-key indexes becomes `List.find?`
  (`post_id` / `submolt_name` are unique keys per the data model).
-/

/-- `startsWithL needle hay`: the character list `needle` occurs at the head
of `hay` (helper for the embedding of JS `String.prototype.includes`). -/
def startsWithL : List Char → List Char → Bool
  | [], _ => true
  | _ :: _, [] => false
  | c :: cs, d :: ds => c == d && startsWithL cs ds

/-- `hasSubL hay needle`: `needle` occurs contiguously somewhere in `hay`. -/
def hasSubL : List Char → List Char → Bool
  | [], needle => needle.isEmpty
  | hay@(_ :: t), needle => startsWithL needle hay || hasSubL t needle

/-- Embedding of JS `hay.includes(pat)`. -/
def strIncludes (hay pat : String) : Bool :=
  hasSubL hay.toList pat.toList

/-- Embedding of JS `String.prototype.toLowerCase` (character-wise lower
casing, which is what the corpus content exercises). -/
def strToLower (s : String) : String :=
  String.mk (s.data.map Char.toLower)

/-- Embedding of JS `String.prototype.trim` (strip leading and trailing
whitespace). -/
def strTrim (s : String) : String :=
  String.mk (((s.data.dropWhile Char.isWhitespace).reverse.dropWhile
    Char.isWhitespace).reverse)

/-- Lexicographic comparison of character lists. -/
def lexLe : List Char → List Char → Bool
  | [], _ => true
  | _ :: _, [] => false
  | c :: cs, d :: ds => if c = d then lexLe cs ds else decide (c < d)

/-- Embedding of `a.localeCompare(b) <= 0` on the lexically sortable
timestamp strings: plain lexicographic string order. -/
def strLe (a b : String) : Bool :=
  lexLe a.data b.data

/-- A `posts.json` record (fields per the data model in the spec §3). -/
structure Post where
  post_id : String
  title : String
  content : String
  content_len : Nat
  author_id : String
  author_name : String
  submolt_name : String
  submolt_display_name : String
  upvotes : Nat
  downvotes : Nat
  comment_count : Nat
  created_at : String
  is_empty_title : Bool
deriving DecidableEq, Repr

/-- A `post_tags.json` record. -/
structure Tag where
  post_id : String
  tag : String
  tag_namespace : String
deriving DecidableEq, Repr

/-- A `post_class_notes.json` record. -/
structure ClassNote where
  post_id : String
  class_note : String
deriving DecidableEq, Repr

/-- A `post_embeddings.json` record (2-D projection of one post). -/
structure Emb where
  post_id : String
  x : ℚ
  y : ℚ
deriving DecidableEq, Repr

/-- The loaded corpus: the record sequences that the queries under
verification read (`DataService.posts`, `postTags`, `postClassNotes`,
`postEmbeddings`). -/
structure DataSvc where
  posts : List Post
  postTags : List Tag
  postClassNotes : List ClassNote
  postEmbeddings : List Emb
deriving DecidableEq, Repr

/-- `DataService.tagsByPostId.get(pid) || []`: the tags of one post, in
load order (the JS index groups `postTags` by `post_id`, preserving
insertion order within each group). -/
def tagsByPostId (ds : DataSvc) (pid : String) : List Tag :=
  ds.postTags.filter (fun t => t.post_id == pid)

/-- `DataService.classNotesByPostId.get(pid) || []`. -/
def classNotesByPostId (ds : DataSvc) (pid : String) : List ClassNote :=
  ds.postClassNotes.filter (fun n => n.post_id == pid)

/-- `DataService.embeddingByPostId.get(pid)` (unique key). -/
def embeddingByPostId (ds : DataSvc) (pid : String) : Option Emb :=
  ds.postEmbeddings.find? (fun e => e.post_id == pid)

/-- `DataService.postById.get(pid)` (unique key). -/
def postById (ds : DataSvc) (pid : String) : Option Post :=
  ds.posts.find? (fun p => p.post_id == pid)

/-- The filter specification consumed by `DataService.filterPosts`
(`StateService.filters`; the nested `engagement` object is flattened). -/
structure Filters where
  submolts : List String
  authors : List String
  tags : List String
  classNotes : List String
  minUpvotes : Nat
  minComments : Nat
  search : String
  postIds : Option (List String)
deriving DecidableEq, Repr

/-- The all-empty filter specification (the `StateService.clearFilters`
default). -/
def emptyFilters : Filters :=
  { submolts := [], authors := [], tags := [], classNotes := []
    minUpvotes := 0, minComments := 0, search := "", postIds := none }

/-- The free-text test of `filterPosts`: `q` is the already-lowercased
search string, matched as a substring of the lowercased title, content, or
author name. -/
def searchMatches (q : String) (p : Post) : Bool :=
  strIncludes (strToLower p.title) q || strIncludes (strToLower p.content) q ||
    strIncludes (strToLower p.author_name) q

/-- The body of `DataService.filterPosts` after `let result = this.posts`:
each conditional stage narrows `result` exactly as the JS code does.
`if (filters.search)` is a JS truthiness test, i.e. it fires for every
non-empty string (including whitespace-only ones). -/
def filterSteps (ds : DataSvc) (f : Filters) (start : List Post) : List Post :=
  let r1 := if 0 < f.submolts.length then
              start.filter (fun p => f.submolts.contains p.submolt_name) else start
  let r2 := if 0 < f.authors.length then
              r1.filter (fun p => f.authors.contains p.author_name) else r1
  let r3 := if 0 < f.tags.length then
              r2.filter (fun p => (tagsByPostId ds p.post_id).any
                (fun t => f.tags.contains t.tag)) else r2
  let r4 := if 0 < f.classNotes.length then
              r3.filter (fun p => (classNotesByPostId ds p.post_id).any
                (fun n => f.classNotes.contains n.class_note)) else r3
  let r5 := if 0 < f.minUpvotes then
              r4.filter (fun p => f.minUpvotes ≤ p.upvotes) else r4
  let r6 := if 0 < f.minComments then
              r5.filter (fun p => f.minComments ≤ p.comment_count) else r5
  let r7 := if f.search = "" then r6
            else r6.filter (searchMatches (strToLower f.search))
  match f.postIds with
  | some ids => if 0 < ids.length then r7.filter (fun p => ids.contains p.post_id) else r7
  | none => r7

/-- `DataService.filterPosts(filters)`: runs the predicate chain over the
loaded corpus. -/
def filterPosts (ds : DataSvc) (f : Filters) : List Post :=
  filterSteps ds f ds.posts

/-- The conjunction of active predicates as the specification words it: a
post passes when every predicate whose specification field is non-empty
holds for it (community, author, at-least-one tag, at-least-one class note,
upvote / comment thresholds, free text, id allow-list). -/
def passesSpec (ds : DataSvc) (f : Filters) (p : Post) : Bool :=
  (f.submolts.isEmpty || f.submolts.contains p.submolt_name) &&
  ((f.authors.isEmpty || f.authors.contains p.author_name) &&
  ((f.tags.isEmpty || (tagsByPostId ds p.post_id).any (fun t => f.tags.contains t.tag)) &&
  ((f.classNotes.isEmpty ||
      (classNotesByPostId ds p.post_id).any (fun n => f.classNotes.contains n.class_note)) &&
  ((decide (f.minUpvotes = 0) || decide (f.minUpvotes ≤ p.upvotes)) &&
  ((decide (f.minComments = 0) || decide (f.minComments ≤ p.comment_count)) &&
  (((f.search == "") || searchMatches (strToLower f.search) p) &&
  (match f.postIds with
   | none => true
   | some ids => ids.isEmpty || ids.contains p.post_id)))))))

section FilterLemmas

variable {α β : Type}

/-- A membership stage guarded by a non-emptiness test is one filter. -/
theorem length_pos_filter (xs : List β) (r : List α) (q : α → Bool) :
    (if 0 < xs.length then r.filter q else r) =
      r.filter (fun p => xs.isEmpty || q p) := by
  cases xs <;> simp

/-- A threshold stage guarded by a positivity test is one filter. -/
theorem threshold_pos_filter (n : Nat) (r : List α) (q : α → Bool) :
    (if 0 < n then r.filter q else r) =
      r.filter (fun p => decide (n = 0) || q p) := by
  cases n <;> simp

/-- The search stage guarded by JS truthiness is one filter. -/
theorem search_cond_filter (s : String) (r : List α) (q : α → Bool) :
    (if s = "" then r else r.filter q) =
      r.filter (fun p => (s == "") || q p) := by
  by_cases h : s = ""
  · simp [h]
  · have hb : (s == "") = false := by simpa using h
    simp [h, hb]

/-- The id allow-list stage is one filter. -/
theorem ids_cond_filter (o : Option (List String)) (r : List α)
    (q : List String → α → Bool) :
    (match o with
     | some ids => if 0 < ids.length then r.filter (q ids) else r
     | none => r) =
      r.filter (fun p => match o with
        | none => true
        | some ids => ids.isEmpty || q ids p) := by
  cases o with
  | none => simp
  | some ids => cases ids <;> simp

/-- Bridge between the two spellings of list emptiness. -/
theorem isEmpty_eq_decide_length (xs : List β) : xs.isEmpty = decide (xs.length = 0) := by
  cases xs <;> simp

end FilterLemmas

/-- C1: `filterPosts` returns exactly the subsequence of the corpus (in
original order) of posts passing every active predicate; the all-empty
specification returns the full corpus; and on the four-post example corpus
`minUpvotes = 10` returns `[B, C]` in original order. -/
theorem filterPosts_characterization (ds : DataSvc) (f : Filters) :
    filterPosts ds f = ds.posts.filter (passesSpec ds f) := by
  unfold filterPosts filterSteps
  cases hp : f.postIds with
  | none =>
    simp only [length_pos_filter, threshold_pos_filter, search_cond_filter]
    simp only [List.filter_filter]
    refine List.filter_congr fun p _ => ?_
    simp only [passesSpec, hp, isEmpty_eq_decide_length]
    ac_rfl
  | some ids =>
    simp only [length_pos_filter, threshold_pos_filter, search_cond_filter]
    simp only [List.filter_filter]
    refine List.filter_congr fun p _ => ?_
    simp only [passesSpec, hp, isEmpty_eq_decide_length]
    ac_rfl

/-- A post with all fields defaulted, for building concrete test corpora. -/
def basePost : Post :=
  { post_id := "", title := "", content := "", content_len := 0, author_id := ""
    author_name := "", submolt_name := "m1", submolt_display_name := "M1"
    upvotes := 0, downvotes := 0, comment_count := 0, created_at := ""
    is_empty_title := false }

/-- Example post A (`upvotes = 5`, `comments = 5`) from the spec §8. -/
def exA : Post :=
  { basePost with post_id := "A", author_name := "authA", upvotes := 5, comment_count := 5 }

/-- Example post B (`upvotes = 12`, `comments = 8`). -/
def exB : Post :=
  { basePost with post_id := "B", author_name := "authB", upvotes := 12, comment_count := 8 }

/-- Example post C (`upvotes = 20`, `comments = 3`). -/
def exC : Post :=
  { basePost with post_id := "C", author_name := "authC", upvotes := 20, comment_count := 3 }

/-- Example post D (`upvotes = 3`, `comments = 0`). -/
def exD : Post :=
  { basePost with post_id := "D", author_name := "authD", upvotes := 3, comment_count := 0 }

/-- The four-post example corpus from the spec §8, all in community `m1`. -/
def exDS : DataSvc :=
  { posts := [exA, exB, exC, exD], postTags := [], postClassNotes := [], postEmbeddings := [] }

/-- A filter specification that only sets `minUpvotes = 10`. -/
def minUp10 : Filters := { emptyFilters with minUpvotes := 10 }

/-- C1: `filterPosts` returns the subsequence of the corpus, in original
corpus order, of exactly those posts that satisfy every active predicate
(empty specification fields are skipped); the all-empty specification
returns the full corpus unchanged; and on the four-post example corpus,
`minUpvotes = 10` returns `[B, C]` in original order. -/
theorem filterPosts_c1 :
    (∀ ds f, filterPosts ds f = ds.posts.filter (passesSpec ds f)) ∧
    (∀ ds, filterPosts ds emptyFilters = ds.posts) ∧
    filterPosts exDS minUp10 = [exB, exC] := by
  refine ⟨filterPosts_characterization, fun ds => ?_, by decide⟩
  rw [filterPosts_characterization]
  simp [passesSpec, emptyFilters]

/-- C8: `filterPosts` is idempotent — re-filtering its own output (as the
corpus of an otherwise unchanged service) with the same specification
returns the same sequence. -/
theorem filterPosts_idempotent (ds : DataSvc) (f : Filters) :
    filterPosts { ds with posts := filterPosts ds f } f = filterPosts ds f := by
  rw [filterPosts_characterization ds f, filterPosts_characterization]
  show (List.filter (passesSpec ds f) ds.posts).filter (passesSpec ds f) =
    List.filter (passesSpec ds f) ds.posts
  simp [List.filter_filter]

/-- A post containing no whitespace in title, content, or author name. -/
def noSpacePost : Post :=
  { basePost with post_id := "X", title := "abc", content := "xyz", author_name := "q" }

/-- A one-post corpus whose post contains no whitespace in its title,
content, or author name. -/
def dsNoSpace : DataSvc :=
  { posts := [noSpacePost], postTags := [], postClassNotes := [], postEmbeddings := [] }

/-- A filter specification that only sets the free-text search string. -/
def searchOnly (s : String) : Filters := { emptyFilters with search := s }

/-- C6 counterexample: a whitespace-only search string is NOT skipped —
`if (filters.search)` is true for `" "`, so the post without spaces is
dropped, while the empty search string skips the predicate and keeps it. -/
theorem filterPosts_blank_search_counterexample :
    filterPosts dsNoSpace (searchOnly " ") ≠ filterPosts dsNoSpace (searchOnly "") := by
  decide

/-- C6 amended: the free-text predicate is a case-insensitive substring
match of `spec.search` against title, content, or author name, and it is
skipped exactly when `spec.search` is the empty string; a whitespace-only
search string is applied as a literal substring pattern, not skipped. -/
theorem filterPosts_search_amended (ds : DataSvc) (f : Filters) (h : f.search ≠ "") :
    filterPosts ds f =
      (filterPosts ds { f with search := "" }).filter (searchMatches (strToLower f.search)) := by
  rw [filterPosts_characterization, filterPosts_characterization]
  simp only [List.filter_filter]
  refine List.filter_congr fun p _ => ?_
  have hb : (f.search == "") = false := by simpa using h
  simp only [passesSpec, hb, Bool.false_or, beq_self_eq_true, Bool.true_or]
  ac_rfl

/-- Witness for the amended C6 theorem at a concrete corpus and search. -/
theorem filterPosts_search_amended_witness :
    filterPosts dsNoSpace (searchOnly "a") =
      (filterPosts dsNoSpace { searchOnly "a" with search := "" }).filter
        (searchMatches (strToLower (searchOnly "a").search)) :=
  filterPosts_search_amended dsNoSpace (searchOnly "a") (by decide)

section CounterMap

variable {α : Type} [DecidableEq α]

/-- One step of the JS `Map`-based counter
(`counts.set(k, (counts.get(k) || 0) + 1)`): increment the entry for `k`,
or append a fresh `(k, 1)` entry at the end (insertion order preserved). -/
def bump : List (α × Nat) → α → List (α × Nat)
  | [], k => [(k, 1)]
  | (k', c) :: rest, k => if k' = k then (k', c + 1) :: rest else (k', c) :: bump rest k

/-- `counts.get(k) || 0` over the association list. -/
def lookupCount (l : List (α × Nat)) (k : α) : Nat :=
  match l.find? (fun kc => kc.1 == k) with
  | some kc => kc.2
  | none => 0

theorem lookupCount_cons (a : α × Nat) (l : List (α × Nat)) (k : α) :
    lookupCount (a :: l) k = if a.1 = k then a.2 else lookupCount l k := by
  by_cases h : a.1 = k <;> simp [lookupCount, List.find?_cons, h]

theorem bump_lookup (l : List (α × Nat)) (k k' : α) :
    lookupCount (bump l k) k' = lookupCount l k' + (if k' = k then 1 else 0) := by
  induction l with
  | nil =>
    by_cases h : k' = k
    · subst h; simp [bump, lookupCount_cons, lookupCount]
    · have h' : ¬ k = k' := fun he => h he.symm
      simp [bump, lookupCount_cons, lookupCount, h, h']
  | cons a t ih =>
    obtain ⟨ka, ca⟩ := a
    by_cases h1 : ka = k
    · subst h1
      by_cases h2 : k' = ka
      · subst h2; simp [bump, lookupCount_cons]
      · have h2' : ¬ ka = k' := fun he => h2 he.symm
        simp [bump, lookupCount_cons, h2, h2']
    · by_cases h2 : ka = k'
      · subst h2
        simp [bump, h1, lookupCount_cons, ih]
      · simp [bump, h1, lookupCount_cons, h2, ih]

theorem bump_keys (l : List (α × Nat)) (k : α) :
    (bump l k).map Prod.fst =
      if k ∈ l.map Prod.fst then l.map Prod.fst else l.map Prod.fst ++ [k] := by
  induction l with
  | nil => simp [bump]
  | cons a t ih =>
    obtain ⟨ka, ca⟩ := a
    by_cases h1 : ka = k
    · simp [bump, h1]
    · have h1' : ¬ k = ka := fun he => h1 he.symm
      by_cases h2 : k ∈ t.map Prod.fst <;> simp [bump, h1, h1', h2, ih]

theorem bump_keys_nodup (l : List (α × Nat)) (k : α)
    (h : (l.map Prod.fst).Nodup) : ((bump l k).map Prod.fst).Nodup := by
  rw [bump_keys]
  by_cases hk : k ∈ l.map Prod.fst
  · simpa [hk] using h
  · simp only [hk, if_false]
    exact (List.nodup_append.2 ⟨h, List.nodup_singleton k, by simpa using hk⟩)

theorem bump_mem_keys (l : List (α × Nat)) (k k' : α) :
    k' ∈ (bump l k).map Prod.fst ↔ k' ∈ l.map Prod.fst ∨ k' = k := by
  rw [bump_keys]
  by_cases hk : k ∈ l.map Prod.fst
  · simp only [hk, if_true]
    constructor
    · exact Or.inl
    · rintro (h | rfl)
      · exact h
      · exact hk
  · simp [hk]

/-- In an association list with distinct keys, each entry's count is what
lookup returns for its key. -/
theorem entry_eq_lookup {l : List (α × Nat)} (h : (l.map Prod.fst).Nodup)
    {kc : α × Nat} (hm : kc ∈ l) : kc.2 = lookupCount l kc.1 := by
  induction l with
  | nil => cases hm
  | cons a t ih =>
    rcases List.mem_cons.1 hm with rfl | hm'
    · simp [lookupCount_cons]
    · have hne : a.1 ≠ kc.1 := by
        intro he
        have : kc.1 ∈ t.map Prod.fst := List.mem_map_of_mem Prod.fst hm'
        rw [← he] at this
        exact (List.nodup_cons.1 h).1 this
      rw [lookupCount_cons]
      simp only [hne, if_false]
      exact ih (List.nodup_cons.1 h).2 hm'

end CounterMap

/-- The `counts` map of `DataService.getTopItems`: distinct values of the
field across the input, in first-encounter order, with multiplicities. -/
def countsList (posts : List Post) (field : Post → String) : List (String × Nat) :=
  posts.foldl (fun acc p => bump acc (field p)) []

theorem countsList_go_lookup (posts : List Post) (field : Post → String) (k : String) :
    ∀ acc : List (String × Nat),
      lookupCount (posts.foldl (fun a p => bump a (field p)) acc) k =
        lookupCount acc k + posts.countP (fun p => field p == k) := by
  induction posts with
  | nil => intro acc; simp
  | cons p t ih =>
    intro acc
    rw [List.foldl_cons, ih, bump_lookup, List.countP_cons]
    by_cases h : field p = k
    · subst h; simp only [if_pos rfl, beq_self_eq_true, if_true]; omega
    · have h' : ¬ k = field p := fun he => h he.symm
      simp [h, h', beq_iff_eq]

/-- The counter map returns the exact multiplicity of each value. -/
theorem countsList_lookup (posts : List Post) (field : Post → String) (k : String) :
    lookupCount (countsList posts field) k = posts.countP (fun p => field p == k) := by
  simpa [lookupCount] using countsList_go_lookup posts field k []

theorem countsList_go_nodup (posts : List Post) (field : Post → String) :
    ∀ acc : List (String × Nat), (acc.map Prod.fst).Nodup →
      ((posts.foldl (fun a p => bump a (field p)) acc).map Prod.fst).Nodup := by
  induction posts with
  | nil => intro acc h; simpa using h
  | cons p t ih => intro acc h; exact ih _ (bump_keys_nodup acc (field p) h)

/-- The counter map has pairwise-distinct keys. -/
theorem countsList_keys_nodup (posts : List Post) (field : Post → String) :
    ((countsList posts field).map Prod.fst).Nodup :=
  countsList_go_nodup posts field [] (by simp)

theorem countsList_go_mem (posts : List Post) (field : Post → String) (k : String) :
    ∀ acc : List (String × Nat),
      (k ∈ (posts.foldl (fun a p => bump a (field p)) acc).map Prod.fst ↔
        k ∈ acc.map Prod.fst ∨ ∃ p ∈ posts, field p = k) := by
  induction posts with
  | nil => intro acc; simp
  | cons p t ih =>
    intro acc
    rw [List.foldl_cons, ih, bump_mem_keys]
    constructor
    · rintro ((h | rfl) | ⟨q, hq, rfl⟩)
      · exact Or.inl h
      · exact Or.inr ⟨p, by simp⟩
      · exact Or.inr ⟨q, by simp [hq]⟩
    · rintro (h | ⟨q, hq, rfl⟩)
      · exact Or.inl (Or.inl h)
      · rcases List.mem_cons.1 hq with rfl | hq'
        · exact Or.inl (Or.inr rfl)
        · exact Or.inr ⟨q, hq', rfl⟩

/-- The counter map's keys are exactly the values occurring in the input. -/
theorem countsList_mem_keys (posts : List Post) (field : Post → String) (k : String) :
    k ∈ (countsList posts field).map Prod.fst ↔ ∃ p ∈ posts, field p = k := by
  simpa using countsList_go_mem posts field k []

section SublistHelpers

variable {γ : Type}

/-- Two distinct members of a list occur in one of the two relative orders. -/
theorem pair_sublist_of_mem {l : List γ} {a b : γ} (ha : a ∈ l) (hb : b ∈ l)
    (hne : a ≠ b) : [a, b].Sublist l ∨ [b, a].Sublist l := by
  induction l with
  | nil => cases ha
  | cons x t ih =>
    rcases List.mem_cons.1 ha with rfl | ha'
    · have hb' : b ∈ t := by
        rcases List.mem_cons.1 hb with rfl | h
        · exact absurd rfl hne
        · exact h
      exact Or.inl ((List.singleton_sublist.2 hb').cons₂ a)
    · rcases List.mem_cons.1 hb with rfl | hb'
      · exact Or.inr ((List.singleton_sublist.2 ha').cons₂ b)
      · rcases ih ha' hb' with h | h
        · exact Or.inl (h.cons x)
        · exact Or.inr (h.cons x)

/-- In a duplicate-free list, a pair cannot occur in both relative orders
unless its two components are equal. -/
theorem sublist_pair_antisymm {l : List γ} (hl : l.Nodup) {a b : γ}
    (h1 : [a, b].Sublist l) (h2 : [b, a].Sublist l) : a = b := by
  induction l with
  | nil => cases h1
  | cons x t ih =>
    have hx : x ∉ t := (List.nodup_cons.1 hl).1
    have ht : t.Nodup := (List.nodup_cons.1 hl).2
    cases h1 with
    | cons _ h1' =>
      cases h2 with
      | cons _ h2' => exact ih ht h1' h2'
      | cons₂ h2' => exact absurd (h1'.subset (by simp)) hx
    | cons₂ h1' =>
      cases h2 with
      | cons _ h2' => exact absurd (h2'.subset (by simp)) hx
      | cons₂ h2' => rfl

end SublistHelpers

/-- A ranked entry of `DataService.getTopItems`:
`{ name, count, displayName }`. -/
structure TopItem where
  name : String
  count : Nat
  displayName : String
deriving DecidableEq, Repr

/-- The JS comparator `(a, b) => b.count - a.count` as a boolean `le`
("`a` may come before `b`"): descending by count. -/
def topItemLe (a b : TopItem) : Bool := decide (b.count ≤ a.count)

/-- The `displays` map of `getTopItems`: `displays.set` runs at every
matching post, so the last post with the key wins; `displays.get(name) ||
name` falls back to the key for an absent or empty display value. -/
def displayOf (posts : List Post) (field : Post → String)
    (displayField : Option (Post → String)) (k : String) : String :=
  match displayField with
  | none => k
  | some df =>
    match posts.reverse.find? (fun p => field p == k) with
    | none => k
    | some p => if df p = "" then k else df p

/-- The unranked entry list of `getTopItems`
(`Array.from(counts.entries()).map(...)`), in first-encounter order. -/
def topItemsPre (posts : List Post) (field : Post → String)
    (displayField : Option (Post → String)) : List TopItem :=
  (countsList posts field).map
    (fun kc => ⟨kc.1, kc.2, displayOf posts field displayField kc.1⟩)

/-- `DataService.getTopItems(posts, field, limit, displayField)`: count,
stable-sort descending by count, truncate. -/
def getTopItems (posts : List Post) (field : Post → String) (limit : Nat)
    (displayField : Option (Post → String)) : List TopItem :=
  ((topItemsPre posts field displayField).mergeSort topItemLe).take limit

theorem topItemLe_trans (a b c : TopItem) (h1 : topItemLe a b) (h2 : topItemLe b c) :
    topItemLe a c := by
  simp only [topItemLe, decide_eq_true_eq] at *
  omega

theorem topItemLe_total (a b : TopItem) : topItemLe a b || topItemLe b a := by
  simp only [topItemLe]
  rcases Nat.le_total a.count b.count with h | h <;> simp [h]

theorem topItemsPre_names (posts : List Post) (field : Post → String)
    (displayField : Option (Post → String)) :
    (topItemsPre posts field displayField).map TopItem.name =
      (countsList posts field).map Prod.fst := by
  simp [topItemsPre, List.map_map]

theorem topItemsPre_nodup (posts : List Post) (field : Post → String)
    (displayField : Option (Post → String)) :
    (topItemsPre posts field displayField).Nodup := by
  refine List.Nodup.of_map TopItem.name ?_
  rw [topItemsPre_names]
  exact countsList_keys_nodup posts field

/-- C7: `getTopItems` returns the distinct values of the key with their
exact multiplicities (names pairwise distinct), truncated to `limit`,
sorted descending by count with ties kept in first-encounter order (the
pre-sort entry order); over the four-post example corpus with four distinct
authors and `limit = 2`, the first two authors encountered are returned. -/
theorem getTopItems_c7 :
    (∀ posts field limit displayField, ∀ it ∈ getTopItems posts field limit displayField,
      it.count = posts.countP (fun p => field p == it.name)) ∧
    (∀ posts field limit displayField,
      ((getTopItems posts field limit displayField).map TopItem.name).Nodup) ∧
    (∀ posts field limit displayField,
      (getTopItems posts field limit displayField).length =
        min limit (topItemsPre posts field displayField).length) ∧
    (∀ posts field (displayField : Option (Post → String)) k,
      ((∃ p ∈ posts, field p = k) ↔
        ∃ it ∈ topItemsPre posts field displayField, it.name = k)) ∧
    (∀ posts field limit displayField,
      (getTopItems posts field limit displayField).Pairwise
        (fun a b => b.count ≤ a.count ∧
          (a.count = b.count → [a, b].Sublist (topItemsPre posts field displayField)))) ∧
    getTopItems [exA, exB, exC, exD] (fun p => p.author_name) 2 none =
      [⟨"authA", 1, "authA"⟩, ⟨"authB", 1, "authB"⟩] := by
  refine ⟨?_, ?_, ?_, ?_, ?_, ?_⟩
  · intro posts field limit displayField it hit
    have h1 : it ∈ (topItemsPre posts field displayField).mergeSort topItemLe :=
      List.mem_of_mem_take hit
    have h2 : it ∈ topItemsPre posts field displayField := List.mem_mergeSort.1 h1
    obtain ⟨kc, hkc, rfl⟩ := List.mem_map.1 h2
    have he := entry_eq_lookup (countsList_keys_nodup posts field) hkc
    rw [countsList_lookup] at he
    simpa using he
  · intro posts field limit displayField
    have hsub : List.Sublist
        ((getTopItems posts field limit displayField).map TopItem.name)
        (((topItemsPre posts field displayField).mergeSort topItemLe).map TopItem.name) :=
      (List.take_sublist _ _).map TopItem.name
    have hperm : List.Perm
        ((((topItemsPre posts field displayField).mergeSort topItemLe)).map TopItem.name)
        ((topItemsPre posts field displayField).map TopItem.name) :=
      (List.mergeSort_perm _ _).map TopItem.name
    refine hsub.nodup ?_
    refine hperm.symm.nodup ?_
    rw [topItemsPre_names]
    exact countsList_keys_nodup posts field
  · intro posts field limit displayField
    simp [getTopItems]
  · intro posts field displayField k
    rw [← countsList_mem_keys posts field k, ← topItemsPre_names posts field displayField]
    simp [List.mem_map]
  · intro posts field limit displayField
    have hpre_nodup : (topItemsPre posts field displayField).Nodup :=
      topItemsPre_nodup posts field displayField
    have hms_nodup : ((topItemsPre posts field displayField).mergeSort topItemLe).Nodup :=
      ((List.mergeSort_perm _ topItemLe).symm).nodup hpre_nodup
    have hsorted := List.sorted_mergeSort topItemLe_trans topItemLe_total
      (topItemsPre posts field displayField)
    refine List.Pairwise.sublist (List.take_sublist _ _) ?_
    rw [List.pairwise_iff_forall_sublist]
    intro a b hab
    constructor
    · have h := List.pairwise_iff_forall_sublist.1 hsorted hab
      simpa [topItemLe] using h
    · intro hcount
      have hane : a ≠ b := by
        intro h
        subst h
        exact (List.nodup_iff_sublist.1 hms_nodup a) hab
      have hmem_a : a ∈ topItemsPre posts field displayField :=
        List.mem_mergeSort.1 (hab.subset (by simp))
      have hmem_b : b ∈ topItemsPre posts field displayField :=
        List.mem_mergeSort.1 (hab.subset (by simp))
      rcases pair_sublist_of_mem hmem_a hmem_b hane with h | h
      · exact h
      · exfalso
        have hba : [b, a].Sublist ((topItemsPre posts field displayField).mergeSort
            topItemLe) :=
          List.pair_sublist_mergeSort topItemLe_trans topItemLe_total
            (by simp [topItemLe, hcount]) h
        exact hane (sublist_pair_antisymm hms_nodup hab hba)
  · have hs : List.Pairwise (fun a b => topItemLe a b)
        (topItemsPre [exA, exB, exC, exD] (fun p => p.author_name) none) := by decide
    unfold getTopItems
    rw [List.mergeSort_of_sorted hs]
    decide

/-- The normalized-title grouping key of `findDuplicates`:
`p.title.toLowerCase().trim()`. -/
def normKey (p : Post) : String := strTrim (strToLower p.title)

/-- One step of the JS `Map`-based grouping
(`groups.set(key, (groups.get(key) || []).push(p))`): append `p` to the
entry for `key`, or append a fresh `(key, [p])` entry at the end. -/
def addToGroup : List (String × List Post) → String → Post → List (String × List Post)
  | [], k, p => [(k, [p])]
  | (k', arr) :: rest, k, p =>
    if k' = k then (k', arr ++ [p]) :: rest else (k', arr) :: addToGroup rest k p

/-- The `groups` map of `findDuplicates`: posts grouped by normalized
title, keys shorter than 10 characters skipped, insertion order kept. -/
def dupGroups (posts : List Post) : List (String × List Post) :=
  posts.foldl (fun acc p =>
    if (normKey p).length < 10 then acc else addToGroup acc (normKey p) p) []

/-- A reported duplicate group: `{ title, count, posts }`. -/
structure DupGroup where
  title : String
  count : Nat
  posts : List Post
deriving DecidableEq, Repr

/-- The JS comparator `(a, b) => b.count - a.count` for duplicate groups. -/
def dupGroupLe (a b : DupGroup) : Bool := decide (b.count ≤ a.count)

/-- `DataService.findDuplicates(posts)`: keep groups with more than one
member, sort by size descending (stable), return at most 20 groups. -/
def findDuplicates (posts : List Post) : List DupGroup :=
  ((((dupGroups posts).filter (fun g => 1 < g.2.length)).map
    (fun g => ⟨g.1, g.2.length, g.2⟩)).mergeSort dupGroupLe).take 20

theorem dupGroupLe_trans (a b c : DupGroup) (h1 : dupGroupLe a b) (h2 : dupGroupLe b c) :
    dupGroupLe a c := by
  simp only [dupGroupLe, decide_eq_true_eq] at *
  omega

theorem dupGroupLe_total (a b : DupGroup) : dupGroupLe a b || dupGroupLe b a := by
  simp only [dupGroupLe]
  rcases Nat.le_total a.count b.count with h | h <;> simp [h]

theorem addToGroup_post_inv (P : String → Post → Prop) (acc : List (String × List Post))
    (k : String) (p : Post) (hacc : ∀ g ∈ acc, ∀ q ∈ g.2, P g.1 q) (hp : P k p) :
    ∀ g ∈ addToGroup acc k p, ∀ q ∈ g.2, P g.1 q := by
  induction acc with
  | nil =>
    intro g hg q hq
    simp only [addToGroup, List.mem_singleton] at hg
    subst hg
    simp only [List.mem_singleton] at hq
    subst hq
    exact hp
  | cons a rest ih =>
    obtain ⟨k', arr⟩ := a
    intro g hg q hq
    by_cases hk : k' = k
    · simp only [addToGroup, hk, if_true, List.mem_cons] at hg
      rcases hg with rfl | hg'
      · rcases List.mem_append.1 hq with hq' | hq'
        · have hPq := hacc (k', arr) (by simp) q hq'
          rw [hk] at hPq
          exact hPq
        · simp only [List.mem_singleton] at hq'
          subst hq'
          exact hp
      · exact hacc g (List.mem_cons_of_mem _ hg') q hq
    · simp only [addToGroup, hk, if_false, List.mem_cons] at hg
      rcases hg with rfl | hg'
      · exact hacc (k', arr) (by simp) q hq
      · exact ih (fun g' hg' => hacc g' (List.mem_cons_of_mem _ hg')) g hg' q hq

theorem addToGroup_key_inv (Q : String → Prop) (acc : List (String × List Post))
    (k : String) (p : Post) (hacc : ∀ g ∈ acc, Q g.1) (hk : Q k) :
    ∀ g ∈ addToGroup acc k p, Q g.1 := by
  induction acc with
  | nil =>
    intro g hg
    simp only [addToGroup, List.mem_singleton] at hg
    subst hg
    exact hk
  | cons a rest ih =>
    obtain ⟨k', arr⟩ := a
    intro g hg
    by_cases hka : k' = k
    · simp only [addToGroup, hka, if_true, List.mem_cons] at hg
      rcases hg with rfl | hg'
      · exact hk
      · exact hacc g (List.mem_cons_of_mem _ hg')
    · simp only [addToGroup, hka, if_false, List.mem_cons] at hg
      rcases hg with rfl | hg'
      · exact hacc (k', arr) (by simp)
      · exact ih (fun g' hg' => hacc g' (List.mem_cons_of_mem _ hg')) g hg'

/-- Every group built by `findDuplicates` has a key of at least 10
characters, and every post it contains has exactly that normalized title. -/
theorem dupGroups_inv (posts : List Post) :
    ∀ g ∈ dupGroups posts, 10 ≤ g.1.length ∧ ∀ q ∈ g.2, normKey q = g.1 := by
  suffices h : ∀ acc : List (String × List Post),
      (∀ g ∈ acc, 10 ≤ g.1.length ∧ ∀ q ∈ g.2, normKey q = g.1) →
      ∀ g ∈ posts.foldl (fun acc p =>
          if (normKey p).length < 10 then acc else addToGroup acc (normKey p) p) acc,
        10 ≤ g.1.length ∧ ∀ q ∈ g.2, normKey q = g.1 by
    exact h [] (by simp)
  induction posts with
  | nil => intro acc hacc; simpa using hacc
  | cons p t ih =>
    intro acc hacc
    rw [List.foldl_cons]
    by_cases hlen : (normKey p).length < 10
    · simp only [hlen, if_true]
      exact ih acc hacc
    · simp only [hlen, if_false]
      refine ih _ ?_
      intro g hg
      constructor
      · exact addToGroup_key_inv (fun k => 10 ≤ k.length) acc (normKey p) p
          (fun g' hg' => (hacc g' hg').1) (by omega) g hg
      · exact addToGroup_post_inv (fun k q => normKey q = k) acc (normKey p) p
          (fun g' hg' => (hacc g' hg').2) rfl g hg

/-- C9: every group returned by `findDuplicates` has a normalized-title
key of at least 10 characters, contains more than one post (its `count`
being the group size), and groups every contained post under its own
normalized title; at most 20 groups are returned, sorted by size
descending. -/
theorem findDuplicates_c9 (posts : List Post) :
    (∀ g ∈ findDuplicates posts,
      10 ≤ g.title.length ∧ 1 < g.count ∧ g.count = g.posts.length ∧
        ∀ p ∈ g.posts, normKey p = g.title) ∧
    (findDuplicates posts).length ≤ 20 ∧
    (findDuplicates posts).Pairwise (fun a b => b.count ≤ a.count) := by
  refine ⟨?_, ?_, ?_⟩
  · intro g hg
    have h1 : g ∈ (((dupGroups posts).filter (fun g => 1 < g.2.length)).map
        (fun g => (⟨g.1, g.2.length, g.2⟩ : DupGroup))).mergeSort dupGroupLe :=
      List.mem_of_mem_take hg
    have h2 := List.mem_mergeSort.1 h1
    obtain ⟨ga, hga, rfl⟩ := List.mem_map.1 h2
    have hf := List.mem_filter.1 hga
    have hinv := dupGroups_inv posts ga hf.1
    refine ⟨hinv.1, by simpa using hf.2, rfl, hinv.2⟩
  · exact List.length_take_le 20 _
  · have hsorted := List.sorted_mergeSort dupGroupLe_trans dupGroupLe_total
      (((dupGroups posts).filter (fun g => 1 < g.2.length)).map
        (fun g => (⟨g.1, g.2.length, g.2⟩ : DupGroup)))
    refine List.Pairwise.sublist (List.take_sublist _ _) ?_
    refine hsorted.imp ?_
    intro a b h
    simpa [dupGroupLe] using h

/-- Squared Euclidean distance between two embedding points.  The JS code
sorts by `Math.sqrt` of this quantity; since the square root is strictly
monotone, sorting by the squared distance gives the identical order, and
the embedding stays in exact rational arithmetic. -/
def dist2 (a b : Emb) : ℚ :=
  (b.x - a.x) * (b.x - a.x) + (b.y - a.y) * (b.y - a.y)

/-- The JS comparator `(a, b) => a.d - b.d` as a boolean `le`: ascending by
distance. -/
def distLe (a b : String × ℚ) : Bool := decide (a.2 ≤ b.2)

/-- The `dists` list of `findSimilarPosts`: one `(id, squared distance)`
entry per embedded post other than the anchor, in load order (the JS code
iterates `embeddingByPostId.entries()`, whose insertion order is the
`postEmbeddings` order — `post_id` is unique there per the data model). -/
def simDists (ds : DataSvc) (postId : String) (target : Emb) : List (String × ℚ) :=
  (ds.postEmbeddings.filter (fun e => !(e.post_id == postId))).map
    (fun e => (e.post_id, dist2 target e))

/-- `DataService.findSimilarPosts(postId, limit)`: empty when the anchor
has no embedding; otherwise sort the other embedded posts by distance,
take `limit`, resolve ids to posts, dropping unresolvable ids. -/
def findSimilarPosts (ds : DataSvc) (postId : String) (limit : Nat) : List Post :=
  match embeddingByPostId ds postId with
  | none => []
  | some target =>
    (((simDists ds postId target).mergeSort distLe).take limit).filterMap
      (fun x => postById ds x.1)

/-- The anchor-to-post distance read back through the embedding index
(`0` when either embedding is absent, which the similarity result never
exhibits). -/
def anchorDist (ds : DataSvc) (anchor : String) (p : Post) : ℚ :=
  match embeddingByPostId ds anchor, embeddingByPostId ds p.post_id with
  | some t, some e => dist2 t e
  | _, _ => 0

theorem distLe_trans (a b c : String × ℚ) (h1 : distLe a b) (h2 : distLe b c) :
    distLe a c := by
  simp only [distLe, decide_eq_true_eq] at *
  exact le_trans h1 h2

theorem distLe_total (a b : String × ℚ) : distLe a b || distLe b a := by
  simp only [distLe]
  rcases le_total a.2 b.2 with h | h <;> simp [h]

/-- Decoding a `dists` entry: its id is not the anchor, it resolves to an
embedding, and any post it resolves to carries exactly that distance. -/
theorem simDists_decode (ds : DataSvc) (anchor : String) (target : Emb)
    (hnd : (ds.postEmbeddings.map Emb.post_id).Nodup)
    (ht : embeddingByPostId ds anchor = some target) :
    ∀ x ∈ simDists ds anchor target, x.1 ≠ anchor ∧
      (embeddingByPostId ds x.1).isSome ∧
      ∀ p : Post, postById ds x.1 = some p →
        p.post_id = x.1 ∧ anchorDist ds anchor p = x.2 := by
  intro x hx
  obtain ⟨e, he, rfl⟩ := List.mem_map.1 hx
  have hef := List.mem_filter.1 he
  have hne : e.post_id ≠ anchor := by
    have := hef.2
    simpa using this
  have hemem : e ∈ ds.postEmbeddings := hef.1
  have hfind : embeddingByPostId ds e.post_id = some e := by
    unfold embeddingByPostId
    have hsome : (ds.postEmbeddings.find? (fun e' => e'.post_id == e.post_id)).isSome := by
      rw [List.find?_isSome]
      exact ⟨e, hemem, by simp⟩
    obtain ⟨e', he'⟩ := Option.isSome_iff_exists.1 hsome
    have he'id : e'.post_id = e.post_id := by
      have := List.find?_some he'
      simpa using this
    have he'mem : e' ∈ ds.postEmbeddings := List.mem_of_find?_eq_some he'
    have heq : e' = e := List.inj_on_of_nodup_map hnd he'mem hemem he'id
    rw [he', heq]
  refine ⟨hne, by simp [hfind], ?_⟩
  intro p hp
  have hpid : p.post_id = e.post_id := by
    have := List.find?_some hp
    simpa using this
  refine ⟨hpid, ?_⟩
  unfold anchorDist
  rw [hpid, ht, hfind]

/-- `Pairwise` transfer along `filterMap`, with the decoding hypothesis
available only at members. -/
theorem pairwise_filterMap_of {α β : Type} {R : α → α → Prop} {S : β → β → Prop}
    (f : α → Option β) {l : List α} (h : l.Pairwise R)
    (hdec : ∀ x ∈ l, ∀ y ∈ l, R x y →
      ∀ p, f x = some p → ∀ q, f y = some q → S p q) :
    (l.filterMap f).Pairwise S := by
  induction l with
  | nil => simp
  | cons a t ih =>
    have hPt : t.Pairwise R := (List.pairwise_cons.1 h).2
    have hRa : ∀ y ∈ t, R a y := (List.pairwise_cons.1 h).1
    cases hfa : f a with
    | none =>
      rw [List.filterMap_cons_none hfa]
      exact ih hPt (fun x hx y hy => hdec x (List.mem_cons_of_mem _ hx)
        y (List.mem_cons_of_mem _ hy))
    | some p =>
      rw [List.filterMap_cons_some hfa]
      refine List.pairwise_cons.2 ⟨?_, ?_⟩
      · intro q hq
        obtain ⟨y, hy, hfy⟩ := List.mem_filterMap.1 hq
        exact hdec a (by simp) y (List.mem_cons_of_mem _ hy) (hRa y hy) p hfa q hfy
      · exact ih hPt (fun x hx y hy => hdec x (List.mem_cons_of_mem _ hx)
          y (List.mem_cons_of_mem _ hy))

/-- Example posts P1, P2, P3 of the spec §8 similarity example. -/
def pP1 : Post := { basePost with post_id := "P1" }

/-- Example post P2. -/
def pP2 : Post := { basePost with post_id := "P2" }

/-- Example post P3. -/
def pP3 : Post := { basePost with post_id := "P3" }

/-- The example corpus with embeddings `P1:(0,0)`, `P2:(1,0)`, `P3:(5,5)`. -/
def exEmbDS : DataSvc :=
  { posts := [pP1, pP2, pP3], postTags := [], postClassNotes := []
    postEmbeddings := [⟨"P1", 0, 0⟩, ⟨"P2", 1, 0⟩, ⟨"P3", 5, 5⟩] }

/-- C5: `findSimilarPosts` returns the empty sequence when the anchor has
no embedding; otherwise at most `k` posts, never the anchor itself, each
resolving to an embedding, ordered by non-decreasing (squared, hence also
plain) Euclidean distance from the anchor; any unresolvable id is dropped
(whence every result is a corpus post); on the example embeddings,
`nearest(P1, 1) = [P2]`. -/
theorem findSimilarPosts_c5 (ds : DataSvc) (anchor : String) (k : Nat)
    (hnd : (ds.postEmbeddings.map Emb.post_id).Nodup) :
    (embeddingByPostId ds anchor = none → findSimilarPosts ds anchor k = []) ∧
    (findSimilarPosts ds anchor k).length ≤ k ∧
    (∀ p ∈ findSimilarPosts ds anchor k,
      p.post_id ≠ anchor ∧ (embeddingByPostId ds p.post_id).isSome ∧
        postById ds p.post_id = some p) ∧
    (findSimilarPosts ds anchor k).Pairwise
      (fun p q => anchorDist ds anchor p ≤ anchorDist ds anchor q) ∧
    (findSimilarPosts ds anchor k).Pairwise
      (fun p q => Real.sqrt ((anchorDist ds anchor p : ℚ) : ℝ) ≤
        Real.sqrt ((anchorDist ds anchor q : ℚ) : ℝ)) ∧
    findSimilarPosts exEmbDS "P1" 1 = [pP2] := by
  have hmem_decode : ∀ target, embeddingByPostId ds anchor = some target →
      ∀ p ∈ findSimilarPosts ds anchor k,
        ∃ x ∈ simDists ds anchor target, postById ds x.1 = some p := by
    intro target ht p hp
    rw [findSimilarPosts, ht] at hp
    obtain ⟨x, hx, hfx⟩ := List.mem_filterMap.1 hp
    exact ⟨x, List.mem_mergeSort.1 (List.mem_of_mem_take hx), hfx⟩
  have hpair : (findSimilarPosts ds anchor k).Pairwise
      (fun p q => anchorDist ds anchor p ≤ anchorDist ds anchor q) := by
    cases ht : embeddingByPostId ds anchor with
    | none =>
      rw [findSimilarPosts, ht]
      simp
    | some target =>
      rw [findSimilarPosts, ht]
      have hsorted := List.sorted_mergeSort distLe_trans distLe_total
        (simDists ds anchor target)
      have htake : (((simDists ds anchor target).mergeSort distLe).take k).Pairwise
          (fun a b => distLe a b) :=
        List.Pairwise.sublist (List.take_sublist _ _) hsorted
      refine pairwise_filterMap_of _ htake ?_
      intro x hx y hy hR p hfp q hfq
      have hxm : x ∈ simDists ds anchor target :=
        List.mem_mergeSort.1 (List.mem_of_mem_take hx)
      have hym : y ∈ simDists ds anchor target :=
        List.mem_mergeSort.1 (List.mem_of_mem_take hy)
      obtain ⟨-, -, hdx⟩ := simDists_decode ds anchor target hnd ht x hxm
      obtain ⟨-, -, hdy⟩ := simDists_decode ds anchor target hnd ht y hym
      obtain ⟨-, hdp⟩ := hdx p hfp
      obtain ⟨-, hdq⟩ := hdy q hfq
      rw [hdp, hdq]
      simpa [distLe] using hR
  refine ⟨?_, ?_, ?_, hpair, ?_, ?_⟩
  · intro h
    rw [findSimilarPosts, h]
  · cases ht : embeddingByPostId ds anchor with
    | none => rw [findSimilarPosts, ht]; simp
    | some target =>
      rw [findSimilarPosts, ht]
      calc ((((simDists ds anchor target).mergeSort distLe).take k).filterMap
              (fun x => postById ds x.1)).length
          ≤ (((simDists ds anchor target).mergeSort distLe).take k).length :=
            List.length_filterMap_le _ _
        _ ≤ k := List.length_take_le k _
  · intro p hp
    cases ht : embeddingByPostId ds anchor with
    | none =>
      rw [findSimilarPosts, ht] at hp
      cases hp
    | some target =>
      obtain ⟨x, hx, hfx⟩ := hmem_decode target ht p hp
      obtain ⟨hne, hsome, hdec⟩ := simDists_decode ds anchor target hnd ht x hx
      obtain ⟨hpid, -⟩ := hdec p hfx
      refine ⟨by rw [hpid]; exact hne, by rw [hpid]; exact hsome, by rw [hpid]; exact hfx⟩
  · refine hpair.imp ?_
    intro a b h
    exact Real.sqrt_le_sqrt (by exact_mod_cast h)
  · have h1 : simDists exEmbDS "P1" (⟨"P1", 0, 0⟩ : Emb) =
        [("P2", (1 : ℚ)), ("P3", (50 : ℚ))] := by
      simp [simDists, exEmbDS, dist2]
      norm_num
    show (((simDists exEmbDS "P1" ⟨"P1", 0, 0⟩).mergeSort distLe).take 1).filterMap
        (fun x => postById exEmbDS x.1) = [pP2]
    rw [h1, List.mergeSort_of_sorted (by decide)]
    decide

/-- C5 witness at the concrete example corpus (embedding ids distinct). -/
theorem findSimilarPosts_c5_witness :
    (embeddingByPostId exEmbDS "P1" = none → findSimilarPosts exEmbDS "P1" 1 = []) ∧
    (findSimilarPosts exEmbDS "P1" 1).length ≤ 1 ∧
    (∀ p ∈ findSimilarPosts exEmbDS "P1" 1,
      p.post_id ≠ "P1" ∧ (embeddingByPostId exEmbDS p.post_id).isSome ∧
        postById exEmbDS p.post_id = some p) ∧
    (findSimilarPosts exEmbDS "P1" 1).Pairwise
      (fun p q => anchorDist exEmbDS "P1" p ≤ anchorDist exEmbDS "P1" q) ∧
    (findSimilarPosts exEmbDS "P1" 1).Pairwise
      (fun p q => Real.sqrt ((anchorDist exEmbDS "P1" p : ℚ) : ℝ) ≤
        Real.sqrt ((anchorDist exEmbDS "P1" q : ℚ) : ℝ)) ∧
    findSimilarPosts exEmbDS "P1" 1 = [pP2] :=
  findSimilarPosts_c5 exEmbDS "P1" 1 (by decide)

/-- `Math.min(...values)` over the mapped field values. -/
def listMin : List ℚ → ℚ
  | [] => 0
  | v :: vs => vs.foldl min v

/-- `Math.max(...values)`. -/
def listMax : List ℚ → ℚ
  | [] => 0
  | v :: vs => vs.foldl max v

/-- The bucket-membership test of `getHistogram`
(`v >= lo && (i === bins - 1 ? v <= hi : v < hi)`). -/
def inBin (mn mx : ℚ) (bins i : Nat) (v : ℚ) : Bool :=
  decide (mn + (i : ℚ) * ((mx - mn) / (bins : ℚ)) ≤ v) &&
    (if i = bins - 1 then decide (v ≤ mn + ((i : ℚ) + 1) * ((mx - mn) / (bins : ℚ)))
     else decide (v < mn + ((i : ℚ) + 1) * ((mx - mn) / (bins : ℚ))))

/-- A histogram bucket: display bounds (floored in the multi-bucket case)
and the member count. -/
structure Bucket where
  bmin : ℚ
  bmax : ℚ
  count : Nat
deriving DecidableEq, Repr

/-- `DataService.getHistogram(posts, field, bins)`: empty on an empty
subset; one bucket of width 1 when all values coincide; otherwise `bins`
equal-width buckets over `[min, max]`, the last one closed, with
floored display bounds. -/
def getHistogram (posts : List Post) (field : Post → ℚ) (bins : Nat) : List Bucket :=
  if posts.length = 0 then []
  else
    let values := posts.map field
    let mn := listMin values
    let mx := listMax values
    if mx = mn then [⟨mn, mn + 1, posts.length⟩]
    else
      (List.range bins).map (fun (i : Nat) =>
        ⟨((⌊mn + (i : ℚ) * ((mx - mn) / (bins : ℚ))⌋ : ℤ) : ℚ),
         ((⌊mn + ((i : ℚ) + 1) * ((mx - mn) / (bins : ℚ))⌋ : ℤ) : ℚ),
         (values.filter (inBin mn mx bins i)).length⟩)

theorem foldl_min_le (vs : List ℚ) (a : ℚ) :
    vs.foldl min a ≤ a ∧ ∀ x ∈ vs, vs.foldl min a ≤ x := by
  induction vs generalizing a with
  | nil => simp
  | cons b t ih =>
    refine ⟨le_trans (ih (min a b)).1 (min_le_left _ _), ?_⟩
    intro x hx
    rcases List.mem_cons.1 hx with rfl | hx'
    · exact le_trans (ih (min a x)).1 (min_le_right _ _)
    · exact (ih (min a b)).2 x hx'

theorem le_foldl_max (vs : List ℚ) (a : ℚ) :
    a ≤ vs.foldl max a ∧ ∀ x ∈ vs, x ≤ vs.foldl max a := by
  induction vs generalizing a with
  | nil => simp
  | cons b t ih =>
    refine ⟨le_trans (le_max_left _ _) (ih (max a b)).1, ?_⟩
    intro x hx
    rcases List.mem_cons.1 hx with rfl | hx'
    · exact le_trans (le_max_right _ _) (ih (max a x)).1
    · exact (ih (max a b)).2 x hx'

theorem listMin_le (l : List ℚ) (x : ℚ) (hx : x ∈ l) : listMin l ≤ x := by
  cases l with
  | nil => cases hx
  | cons v vs =>
    rcases List.mem_cons.1 hx with rfl | hx'
    · exact (foldl_min_le vs x).1
    · exact (foldl_min_le vs v).2 x hx'

theorem le_listMax (l : List ℚ) (x : ℚ) (hx : x ∈ l) : x ≤ listMax l := by
  cases l with
  | nil => cases hx
  | cons v vs =>
    rcases List.mem_cons.1 hx with rfl | hx'
    · exact (le_foldl_max vs x).1
    · exact (le_foldl_max vs v).2 x hx'

theorem sum_map_add {γ : Type} (l : List γ) (f g : γ → Nat) :
    (l.map (fun i => f i + g i)).sum = (l.map f).sum + (l.map g).sum := by
  induction l with
  | nil => simp
  | cons a t ih => simp [ih]; omega

theorem sum_ite_eq_countP {γ : Type} (l : List γ) (q : γ → Bool) :
    (l.map (fun i => if q i then 1 else 0)).sum = l.countP q := by
  induction l with
  | nil => simp
  | cons a t ih => by_cases h : q a <;> simp [List.countP_cons, h, ih] <;> omega

theorem countP_eq_one_of_unique {γ : Type} (l : List γ) (q : γ → Bool) (j : γ)
    (hnd : l.Nodup) (hj : j ∈ l) (hq : q j) (hu : ∀ i ∈ l, q i → i = j) :
    l.countP q = 1 := by
  induction l with
  | nil => cases hj
  | cons a t ih =>
    rcases List.mem_cons.1 hj with rfl | hj'
    · have hz : t.countP q = 0 := by
        rw [List.countP_eq_zero]
        intro x hx hqx
        have hxj := hu x (List.mem_cons_of_mem _ hx) hqx
        subst hxj
        exact absurd hx (List.nodup_cons.1 hnd).1
      rw [List.countP_cons]
      simp [hq, hz]
    · have hqa : q a = false := by
        by_contra hqa
        rw [Bool.not_eq_false] at hqa
        have haj := hu a (by simp) hqa
        subst haj
        exact absurd hj' (List.nodup_cons.1 hnd).1
      rw [List.countP_cons]
      simp only [hqa, if_false, Nat.add_zero]
      exact ih (List.nodup_cons.1 hnd).2 hj'
        (fun i hi hqi => hu i (List.mem_cons_of_mem _ hi) hqi)

/-- Double counting: when every value lies in exactly one bucket, bucket
counts sum to the number of values. -/
theorem sum_filter_lengths {γ : Type} (k : Nat) (p : Nat → γ → Bool) (values : List γ)
    (h1 : ∀ v ∈ values, (List.range k).countP (fun i => p i v) = 1) :
    ((List.range k).map (fun i => (values.filter (p i)).length)).sum = values.length := by
  induction values with
  | nil => simp
  | cons v vs ih =>
    have hv := h1 v (by simp)
    have hrec := ih (fun w hw => h1 w (by simp [hw]))
    have hsplit : ∀ i : Nat, ((v :: vs).filter (p i)).length =
        (if p i v then 1 else 0) + (vs.filter (p i)).length := by
      intro i
      by_cases h : p i v <;> simp [List.filter_cons, h] <;> omega
    calc ((List.range k).map (fun i => ((v :: vs).filter (p i)).length)).sum
        = ((List.range k).map (fun i =>
            (if p i v then 1 else 0) + (vs.filter (p i)).length)).sum :=
          congrArg List.sum (List.map_congr_left (fun i _ => hsplit i))
      _ = ((List.range k).map (fun i => if p i v then 1 else 0)).sum +
          ((List.range k).map (fun i => (vs.filter (p i)).length)).sum :=
          sum_map_add _ _ _
      _ = (List.range k).countP (fun i => p i v) + vs.length := by
          rw [sum_ite_eq_countP, hrec]
      _ = 1 + vs.length := by rw [hv]
      _ = (v :: vs).length := by simp [Nat.add_comm]

/-- Bucket membership rephrased on the scaled coordinate
`u = (v - mn) / s` with `s` the bucket width. -/
theorem inBin_char (mn mx v : ℚ) (k i : Nat) (hs : (0 : ℚ) < (mx - mn) / (k : ℚ)) :
    (inBin mn mx k i v = true) ↔
      ((i : ℚ) ≤ (v - mn) / ((mx - mn) / (k : ℚ)) ∧
        (if i = k - 1 then (v - mn) / ((mx - mn) / (k : ℚ)) ≤ (i : ℚ) + 1
         else (v - mn) / ((mx - mn) / (k : ℚ)) < (i : ℚ) + 1)) := by
  have h1 : (mn + (i : ℚ) * ((mx - mn) / (k : ℚ)) ≤ v) ↔
      ((i : ℚ) ≤ (v - mn) / ((mx - mn) / (k : ℚ))) := by
    rw [le_div_iff hs]
    constructor <;> intro h <;> linarith
  have h2 : (v < mn + ((i : ℚ) + 1) * ((mx - mn) / (k : ℚ))) ↔
      ((v - mn) / ((mx - mn) / (k : ℚ)) < (i : ℚ) + 1) := by
    rw [div_lt_iff hs]
    constructor <;> intro h <;> linarith
  have h3 : (v ≤ mn + ((i : ℚ) + 1) * ((mx - mn) / (k : ℚ))) ↔
      ((v - mn) / ((mx - mn) / (k : ℚ)) ≤ (i : ℚ) + 1) := by
    rw [div_le_iff hs]
    constructor <;> intro h <;> linarith
  by_cases h : i = k - 1
  · subst h
    simp [inBin, h1, h3]
  · simp [inBin, h, h1, h2]

/-- Every value of `[mn, mx]` lies in exactly one of the `k` buckets. -/
theorem inBin_exists_unique (mn mx v : ℚ) (k : Nat) (hk : 1 ≤ k) (hlt : mn < mx)
    (hv1 : mn ≤ v) (hv2 : v ≤ mx) :
    ∃ j ∈ List.range k, inBin mn mx k j v ∧
      ∀ i ∈ List.range k, inBin mn mx k i v → i = j := by
  have hk0 : (0 : ℚ) < (k : ℚ) := by exact_mod_cast hk
  have hs : (0 : ℚ) < (mx - mn) / (k : ℚ) := div_pos (by linarith) hk0
  have hks : (k : ℚ) * ((mx - mn) / (k : ℚ)) = mx - mn := by
    field_simp
  have hu0 : 0 ≤ (v - mn) / ((mx - mn) / (k : ℚ)) := div_nonneg (by linarith) hs.le
  have huk : (v - mn) / ((mx - mn) / (k : ℚ)) ≤ (k : ℚ) := by
    rw [div_le_iff hs]
    linarith
  set u := (v - mn) / ((mx - mn) / (k : ℚ)) with hu_def
  have hf0 : 0 ≤ ⌊u⌋ := Int.floor_nonneg.2 hu0
  have hfu : ((⌊u⌋ : ℤ) : ℚ) ≤ u := Int.floor_le u
  have hfu1 : u < ((⌊u⌋ : ℤ) : ℚ) + 1 := Int.lt_floor_add_one u
  by_cases hcase : k - 1 ≤ (⌊u⌋).toNat
  · refine ⟨k - 1, by simp; omega, ?_, ?_⟩
    · rw [inBin_char mn mx v k (k - 1) hs]
      have hik : ((k - 1 : ℕ) : ℚ) = (k : ℚ) - 1 := by
        push_cast [Nat.cast_sub hk]
        ring
      constructor
      · have h1 : ((k - 1 : ℕ) : ℤ) ≤ ⌊u⌋ := by omega
        have h2 : (((k - 1 : ℕ) : ℤ) : ℚ) ≤ ((⌊u⌋ : ℤ) : ℚ) := by exact_mod_cast h1
        calc ((k - 1 : ℕ) : ℚ) = (((k - 1 : ℕ) : ℤ) : ℚ) := by push_cast; ring
          _ ≤ ((⌊u⌋ : ℤ) : ℚ) := h2
          _ ≤ u := hfu
      · rw [if_pos rfl, hik]
        linarith
    · intro i hi hbin
      rw [inBin_char mn mx v k i hs] at hbin
      by_cases hieq : i = k - 1
      · exact hieq
      · exfalso
        obtain ⟨hl, hr⟩ := hbin
        rw [if_neg hieq] at hr
        have hif : (i : ℤ) ≤ ⌊u⌋ := Int.le_floor.2 (by exact_mod_cast hl)
        have hfi : ⌊u⌋ < (i : ℤ) + 1 := Int.floor_lt.2 (by exact_mod_cast hr)
        have hik2 : i < k := List.mem_range.1 hi
        omega
  · push_neg at hcase
    refine ⟨(⌊u⌋).toNat, by simp; omega, ?_, ?_⟩
    · rw [inBin_char mn mx v k (⌊u⌋).toNat hs]
      have hcast : (((⌊u⌋).toNat : ℕ) : ℚ) = ((⌊u⌋ : ℤ) : ℚ) := by
        have := Int.toNat_of_nonneg hf0
        exact_mod_cast congrArg (fun z : ℤ => (z : ℚ)) this
      constructor
      · rw [hcast]
        exact hfu
      · rw [if_neg (by omega), hcast]
        exact hfu1
    · intro i hi hbin
      rw [inBin_char mn mx v k i hs] at hbin
      obtain ⟨hl, hr⟩ := hbin
      have hif : (i : ℤ) ≤ ⌊u⌋ := Int.le_floor.2 (by exact_mod_cast hl)
      by_cases hieq : i = k - 1
      · exfalso
        omega
      · rw [if_neg hieq] at hr
        have hfi : ⌊u⌋ < (i : ℤ) + 1 := Int.floor_lt.2 (by exact_mod_cast hr)
        omega

/-- With at least one value, at least one bucket, and a non-degenerate
range, every value lies in exactly one bucket of the histogram. -/
theorem getHistogram_uniq (posts : List Post) (field : Post → ℚ) (bins : Nat)
    (hne : posts ≠ []) (hbins : 1 ≤ bins)
    (heq : listMax (posts.map field) ≠ listMin (posts.map field)) :
    ∀ v ∈ posts.map field,
      (List.range bins).countP
        (fun i => inBin (listMin (posts.map field)) (listMax (posts.map field))
          bins i v) = 1 := by
  intro v hv
  have hvne : posts.map field ≠ [] := by simpa using hne
  have hlt : listMin (posts.map field) < listMax (posts.map field) := by
    rcases List.exists_mem_of_ne_nil _ hvne with ⟨w, hw⟩
    have h1 := listMin_le _ w hw
    have h2 := le_listMax _ w hw
    rcases lt_or_eq_of_le (le_trans h1 h2) with h | h
    · exact h
    · exact absurd h.symm heq
  obtain ⟨j, hj, hbj, hu⟩ := inBin_exists_unique _ _ v bins hbins hlt
    (listMin_le _ v hv) (le_listMax _ v hv)
  exact countP_eq_one_of_unique _ _ j (List.nodup_range bins) hj hbj hu

/-- C2 (amended: at least one bucket requested): the histogram's bucket
counts sum to the input size; when all values coincide a single bucket of
width 1 holds the full count; otherwise every value lies in exactly one of
the `bins` buckets (half-open, the last one closed). -/
theorem getHistogram_c2 (posts : List Post) (field : Post → ℚ) (bins : Nat)
    (hne : posts ≠ []) (hbins : 1 ≤ bins) :
    ((getHistogram posts field bins).map Bucket.count).sum = posts.length ∧
    (listMax (posts.map field) = listMin (posts.map field) →
      getHistogram posts field bins =
        [⟨listMin (posts.map field), listMin (posts.map field) + 1, posts.length⟩]) ∧
    (listMax (posts.map field) ≠ listMin (posts.map field) →
      ∀ v ∈ posts.map field,
        (List.range bins).countP
          (fun i => inBin (listMin (posts.map field)) (listMax (posts.map field))
            bins i v) = 1) := by
  have hlen : ¬ posts.length = 0 := by
    simpa [List.length_eq_zero] using hne
  refine ⟨?_, ?_, getHistogram_uniq posts field bins hne hbins⟩
  · by_cases heq : listMax (posts.map field) = listMin (posts.map field)
    · simp [getHistogram, if_neg hlen, if_pos heq, hne]
    · have hsum := sum_filter_lengths bins
        (fun i v => inBin (listMin (posts.map field)) (listMax (posts.map field)) bins i v)
        (posts.map field) (getHistogram_uniq posts field bins hne hbins heq)
      simp only [getHistogram, if_neg hlen, if_neg heq, List.map_map]
      simpa [Function.comp] using hsum
  · intro heq
    simp [getHistogram, if_neg hlen, if_pos heq, hne]

/-- C2 counterexample at `bins = 0`: the histogram is empty, so the bucket
counts sum to 0, not to the input size 2 — the claim's "every bin count k"
fails at `k = 0`. -/
theorem getHistogram_c2_counterexample :
    ¬ (((getHistogram [exA, exB]
          (fun p => if p.post_id = "A" then (5 : ℚ) else 12) 0).map Bucket.count).sum
        = ([exA, exB] : List Post).length) := by
  decide

/-- C2 witness at a concrete two-post corpus with one bucket. -/
theorem getHistogram_c2_witness :
    ((getHistogram [exA, exB] (fun p => if p.post_id = "A" then (5 : ℚ) else 12) 1).map
        Bucket.count).sum = ([exA, exB] : List Post).length ∧
    (listMax ([exA, exB].map (fun p => if p.post_id = "A" then (5 : ℚ) else 12)) =
        listMin ([exA, exB].map (fun p => if p.post_id = "A" then (5 : ℚ) else 12)) →
      getHistogram [exA, exB] (fun p => if p.post_id = "A" then (5 : ℚ) else 12) 1 =
        [⟨listMin ([exA, exB].map (fun p => if p.post_id = "A" then (5 : ℚ) else 12)),
          listMin ([exA, exB].map (fun p => if p.post_id = "A" then (5 : ℚ) else 12)) + 1,
          ([exA, exB] : List Post).length⟩]) ∧
    (listMax ([exA, exB].map (fun p => if p.post_id = "A" then (5 : ℚ) else 12)) ≠
        listMin ([exA, exB].map (fun p => if p.post_id = "A" then (5 : ℚ) else 12)) →
      ∀ v ∈ [exA, exB].map (fun p => if p.post_id = "A" then (5 : ℚ) else 12),
        (List.range 1).countP
          (fun i => inBin
            (listMin ([exA, exB].map (fun p => if p.post_id = "A" then (5 : ℚ) else 12)))
            (listMax ([exA, exB].map (fun p => if p.post_id = "A" then (5 : ℚ) else 12)))
            1 i v) = 1) :=
  getHistogram_c2 [exA, exB] (fun p => if p.post_id = "A" then (5 : ℚ) else 12) 1
    (by decide) (by decide)

/-- The rectangle-selection primitive shared by the two `mouseup` handlers
(`renderSpaces` and `renderEmbeddings`): the caller has already mapped the
points into the rectangle's coordinate space (the d3 scales are applied
before the comparison), the selection only fires when the dragged
rectangle is strictly wider and taller than 5 units
(`x1 - x0 > 5 && y1 - y0 > 5`), and it keeps the ids of the points inside
the rectangle, inclusive on all four edges. -/
def pointsInRect (points : List Emb) (x0 y0 x1 y1 : ℚ) : List String :=
  if 5 < x1 - x0 ∧ 5 < y1 - y0 then
    (points.filter (fun d => decide (x0 ≤ d.x) && decide (d.x ≤ x1) &&
      decide (y0 ≤ d.y) && decide (d.y ≤ y1))).map Emb.post_id
  else []

/-- C3 counterexample: the point `(1, 1)` lies inside the rectangle
`[0, 3] × [0, 10]` (inclusive), yet the selection returns the empty set,
because the handler ignores any rectangle of width or height at most 5 —
not only degenerate ones. -/
theorem pointsInRect_c3_counterexample :
    ((0 : ℚ) ≤ 1 ∧ (1 : ℚ) ≤ 3 ∧ (0 : ℚ) ≤ 1 ∧ (1 : ℚ) ≤ 10) ∧
    pointsInRect [⟨"p", 1, 1⟩] 0 0 3 10 = [] := by
  constructor
  · norm_num
  · norm_num [pointsInRect]

/-- C3 amended: the selection returns exactly the ids of the points inside
the rectangle (inclusive on all four edges) whenever the rectangle is
strictly wider and taller than 5 units, and the empty set otherwise — in
particular for every degenerate rectangle of zero width or height; a
sufficiently large rectangle containing all points returns all ids. -/
theorem pointsInRect_amended (points : List Emb) (x0 y0 x1 y1 : ℚ) :
    (∀ pid, pid ∈ pointsInRect points x0 y0 x1 y1 ↔
      ((5 < x1 - x0 ∧ 5 < y1 - y0) ∧
        ∃ d ∈ points, d.post_id = pid ∧ x0 ≤ d.x ∧ d.x ≤ x1 ∧ y0 ≤ d.y ∧ d.y ≤ y1)) ∧
    (x1 - x0 = 0 ∨ y1 - y0 = 0 → pointsInRect points x0 y0 x1 y1 = []) ∧
    ((5 < x1 - x0 ∧ 5 < y1 - y0) →
      (∀ d ∈ points, x0 ≤ d.x ∧ d.x ≤ x1 ∧ y0 ≤ d.y ∧ d.y ≤ y1) →
      pointsInRect points x0 y0 x1 y1 = points.map Emb.post_id) := by
  refine ⟨?_, ?_, ?_⟩
  · intro pid
    by_cases h : 5 < x1 - x0 ∧ 5 < y1 - y0
    · simp only [pointsInRect, if_pos h, List.mem_map, List.mem_filter,
        Bool.and_eq_true, decide_eq_true_eq]
      constructor
      · rintro ⟨d, ⟨hd, ⟨⟨⟨h1, h2⟩, h3⟩, h4⟩⟩, rfl⟩
        exact ⟨h, d, hd, rfl, h1, h2, h3, h4⟩
      · rintro ⟨-, d, hd, rfl, h1, h2, h3, h4⟩
        exact ⟨d, ⟨hd, ⟨⟨⟨h1, h2⟩, h3⟩, h4⟩⟩, rfl⟩
    · simp only [pointsInRect, if_neg h, List.not_mem_nil, false_iff]
      rintro ⟨hc, -⟩
      exact h hc
  · intro h
    have hno : ¬ (5 < x1 - x0 ∧ 5 < y1 - y0) := by
      rintro ⟨h1, h2⟩
      rcases h with h | h <;> linarith
    simp [pointsInRect, hno]
  · intro h hall
    simp only [pointsInRect, if_pos h]
    rw [List.filter_eq_self.2 ?_]
    intro d hd
    obtain ⟨h1, h2, h3, h4⟩ := hall d hd
    simp [h1, h2, h3, h4]

/-- C3 witness: a large rectangle containing the single point returns its
id, by the amended theorem. -/
theorem pointsInRect_amended_witness :
    pointsInRect [⟨"p", 0, 0⟩] (-10) (-10) 10 10 =
      ([⟨"p", 0, 0⟩] : List Emb).map Emb.post_id :=
  (pointsInRect_amended [⟨"p", 0, 0⟩] (-10) (-10) 10 10).2.2 (by norm_num)
    (by
      intro d hd
      simp only [List.mem_singleton] at hd
      subst hd
      norm_num)

/-- A `tag_edges.json` record: an unordered tag pair with its co-occurrence
weight (a number in the code; exact rational in the embedding). -/
structure TagEdge where
  tag_a : String
  tag_b : String
  weight : ℚ
deriving DecidableEq, Repr

/-- The `nodeWeights` map of `renderTagNetwork`: each edge adds its weight
to both endpoints. -/
def nodeWeight (edges : List TagEdge) (t : String) : ℚ :=
  (edges.map (fun e => (if e.tag_a = t then e.weight else 0) +
    (if e.tag_b = t then e.weight else 0))).sum

/-- `normalizedWeight = e.weight / max(nodeWeight[a], nodeWeight[b]) * 100`. -/
def normalizedWeight (edges : List TagEdge) (e : TagEdge) : ℚ :=
  e.weight / max (nodeWeight edges e.tag_a) (nodeWeight edges e.tag_b) * 100

/-- `normalizedEdges.filter(e => e.normalizedWeight >= edgeThresholdPercent)`. -/
def survivingEdges (edges : List TagEdge) (threshold : ℚ) : List TagEdge :=
  edges.filter (fun e => decide (threshold ≤ normalizedWeight edges e))

/-- JS `Set.add` in insertion order. -/
def insertNode (acc : List String) (t : String) : List String :=
  if acc.contains t then acc else acc ++ [t]

/-- The `nodeSet` of `renderTagNetwork`: endpoints of the surviving edges
only (nodes with no surviving edge are dropped). -/
def networkNodes (edges : List TagEdge) (threshold : ℚ) : List String :=
  (survivingEdges edges threshold).foldl
    (fun acc e => insertNode (insertNode acc e.tag_a) e.tag_b) []

theorem nodeWeight_entry_nonneg (edges : List TagEdge)
    (hw : ∀ e ∈ edges, 0 < e.weight) (t : String) :
    ∀ x ∈ edges.map (fun e => (if e.tag_a = t then e.weight else 0) +
      (if e.tag_b = t then e.weight else 0)), 0 ≤ x := by
  intro x hx
  obtain ⟨e, he, rfl⟩ := List.mem_map.1 hx
  have h := (hw e he).le
  by_cases h1 : e.tag_a = t <;> by_cases h2 : e.tag_b = t <;> simp [h1, h2] <;> linarith

/-- Each edge's weight is at most its `tag_a` endpoint's node weight. -/
theorem weight_le_nodeWeight (edges : List TagEdge) (e : TagEdge) (he : e ∈ edges)
    (hw : ∀ e' ∈ edges, 0 < e'.weight) :
    e.weight ≤ nodeWeight edges e.tag_a := by
  unfold nodeWeight
  have hle : e.weight ≤ (if e.tag_a = e.tag_a then e.weight else 0) +
      (if e.tag_b = e.tag_a then e.weight else 0) := by
    rw [if_pos rfl]
    by_cases h : e.tag_b = e.tag_a <;> simp [h]
    exact (hw e he).le
  calc e.weight ≤ _ := hle
    _ ≤ _ := List.single_le_sum (nodeWeight_entry_nonneg edges hw e.tag_a) _
        (List.mem_map_of_mem _ he)

theorem networkNodes_mem_aux (l : List TagEdge) (n : String) :
    ∀ acc, n ∈ l.foldl (fun acc e => insertNode (insertNode acc e.tag_a) e.tag_b) acc →
      n ∈ acc ∨ ∃ e ∈ l, n = e.tag_a ∨ n = e.tag_b := by
  have hmem : ∀ (ac : List String) (s : String), n ∈ insertNode ac s → n ∈ ac ∨ n = s := by
    intro ac s hn
    unfold insertNode at hn
    by_cases hc : ac.contains s
    · rw [if_pos hc] at hn
      exact Or.inl hn
    · rw [if_neg hc] at hn
      rcases List.mem_append.1 hn with h1 | h1
      · exact Or.inl h1
      · simp only [List.mem_singleton] at h1
        exact Or.inr h1
  induction l with
  | nil =>
    intro acc h
    exact Or.inl (by simpa using h)
  | cons e t ih =>
    intro acc h
    rcases ih _ h with h' | ⟨e', he', hor⟩
    · rcases hmem _ _ h' with h'' | rfl
      · rcases hmem _ _ h'' with h3 | rfl
        · exact Or.inl h3
        · exact Or.inr ⟨e, by simp, Or.inl rfl⟩
      · exact Or.inr ⟨e, by simp, Or.inr rfl⟩
    · exact Or.inr ⟨e', by simp [he'], hor⟩

/-- C4 (amended: all edge weights positive): every normalized edge weight
lies in `(0, 100]`; thresholding at 0% keeps every edge; thresholding
above 100% keeps none; and every node of the thresholded graph is an
endpoint of some surviving edge. -/
theorem tagNetwork_c4 (edges : List TagEdge) (hw : ∀ e ∈ edges, 0 < e.weight) :
    (∀ e ∈ edges, 0 < normalizedWeight edges e ∧ normalizedWeight edges e ≤ 100) ∧
    survivingEdges edges 0 = edges ∧
    (∀ t : ℚ, 100 < t → survivingEdges edges t = []) ∧
    (∀ t : ℚ, ∀ n ∈ networkNodes edges t,
      ∃ e ∈ survivingEdges edges t, n = e.tag_a ∨ n = e.tag_b) := by
  have hbound : ∀ e ∈ edges, 0 < normalizedWeight edges e ∧ normalizedWeight edges e ≤ 100 := by
    intro e he
    have hwa : e.weight ≤ nodeWeight edges e.tag_a := weight_le_nodeWeight edges e he hw
    have hM : e.weight ≤ max (nodeWeight edges e.tag_a) (nodeWeight edges e.tag_b) :=
      le_trans hwa (le_max_left _ _)
    have hMpos : 0 < max (nodeWeight edges e.tag_a) (nodeWeight edges e.tag_b) :=
      lt_of_lt_of_le (hw e he) hM
    have hdiv1 : e.weight / max (nodeWeight edges e.tag_a) (nodeWeight edges e.tag_b) ≤ 1 :=
      (div_le_one hMpos).2 hM
    have hdiv0 : 0 < e.weight / max (nodeWeight edges e.tag_a) (nodeWeight edges e.tag_b) :=
      div_pos (hw e he) hMpos
    unfold normalizedWeight
    constructor
    · nlinarith
    · nlinarith
  refine ⟨hbound, ?_, ?_, ?_⟩
  · unfold survivingEdges
    rw [List.filter_eq_self]
    intro e he
    simp only [decide_eq_true_eq]
    exact (hbound e he).1.le
  · intro t ht
    unfold survivingEdges
    rw [List.filter_eq_nil]
    intro e he
    simp only [decide_eq_true_eq]
    intro hc
    have := (hbound e he).2
    linarith
  · intro t n hn
    rcases networkNodes_mem_aux (survivingEdges edges t) n [] hn with h | h
    · cases h
    · exact h

/-- The concrete edge list with a zero-weight edge for the C4
counterexample. -/
def exTagEdges : List TagEdge := [⟨"a", "b", 0⟩, ⟨"a", "c", 5⟩]

/-- C4 counterexample: a zero-weight edge (legal under the data model's
"non-negative integer" weights) gets normalized weight 0, which is outside
`(0, 100]`. -/
theorem tagNetwork_c4_counterexample :
    (⟨"a", "b", 0⟩ : TagEdge) ∈ exTagEdges ∧
    ¬ (0 < normalizedWeight exTagEdges ⟨"a", "b", 0⟩) := by
  constructor
  · simp [exTagEdges]
  · norm_num [normalizedWeight]

/-- The concrete all-positive edge list for the C4 witness. -/
def posTagEdges : List TagEdge := [⟨"x", "y", 3⟩]

/-- C4 witness at a concrete positive-weight edge list. -/
theorem tagNetwork_c4_witness :
    (∀ e ∈ posTagEdges, 0 < normalizedWeight posTagEdges e ∧
      normalizedWeight posTagEdges e ≤ 100) ∧
    survivingEdges posTagEdges 0 = posTagEdges ∧
    (∀ t : ℚ, 100 < t → survivingEdges posTagEdges t = []) ∧
    (∀ t : ℚ, ∀ n ∈ networkNodes posTagEdges t,
      ∃ e ∈ survivingEdges posTagEdges t, n = e.tag_a ∨ n = e.tag_b) :=
  tagNetwork_c4 posTagEdges
    (by
      intro e he
      simp only [posTagEdges, List.mem_singleton] at he
      subst he
      norm_num)

/-- The sortable field selector of `sortPosts`. -/
inductive SortField
  | created_at
  | upvotes
  | downvotes
  | comment_count
  | content_len
deriving DecidableEq, Repr

/-- Per-field order: `created_at` lexicographic on the sortable timestamp
strings (`localeCompare`), the rest numeric (`a[field] - b[field]`). -/
def fieldLe (field : SortField) (a b : Post) : Bool :=
  match field with
  | .created_at => strLe a.created_at b.created_at
  | .upvotes => decide (a.upvotes ≤ b.upvotes)
  | .downvotes => decide (a.downvotes ≤ b.downvotes)
  | .comment_count => decide (a.comment_count ≤ b.comment_count)
  | .content_len => decide (a.content_len ≤ b.content_len)

/-- The comparator of `sortPosts` (`asc ? cmp : -cmp`) as a boolean `le`. -/
def sortPostsLe (field : SortField) (asc : Bool) (a b : Post) : Bool :=
  if asc then fieldLe field a b else fieldLe field b a

/-- A heap of post arrays, making JS array aliasing and in-place
`Array.prototype.sort` observable: a reference is an index, reading a
dangling reference yields `[]`, allocation appends, and an in-place sort
is a write through the reference. -/
abbrev Heap := List (List Post)

/-- Dereference. -/
def Heap.get (h : Heap) (r : Nat) : List Post := h.getD r []

/-- Allocate a fresh array (`[...posts]` makes a copy). -/
def Heap.alloc (h : Heap) (xs : List Post) : Heap × Nat := (h ++ [xs], h.length)

/-- Overwrite the array behind a reference (in-place `sort`). -/
def Heap.write (h : Heap) (r : Nat) (xs : List Post) : Heap := h.set r xs

/-- `DataService.sortPosts(posts, field, asc)` on the heap: copy the input
array (`const sorted = [...posts]`), sort the copy in place, return the
copy's reference. -/
def sortPosts (h : Heap) (r : Nat) (field : SortField) (asc : Bool) : Heap × Nat :=
  let c := Heap.alloc h (Heap.get h r)
  (Heap.write c.1 c.2 ((Heap.get c.1 c.2).mergeSort (sortPostsLe field asc)), c.2)

/-- An outlier report entry (`{ type, post, value }`; the JS field `type`
is called `otype` here). -/
structure Outlier where
  otype : String
  post : Post
  value : Nat
deriving DecidableEq, Repr

/-- Descending by upvotes (`(a, b) => b.upvotes - a.upvotes`). -/
def upvotesDesc (a b : Post) : Bool := decide (b.upvotes ≤ a.upvotes)

/-- Descending by content length. -/
def contentLenDesc (a b : Post) : Bool := decide (b.content_len ≤ a.content_len)

/-- `DataService.findOutliers(posts)` on the heap: two fresh copies of the
input are sorted in place; the top 10 by upvotes exceeding 10 and the top
5 by content length exceeding 5000 are reported. -/
def findOutliers (h : Heap) (r : Nat) : Heap × List Outlier :=
  let c1 := Heap.alloc h (Heap.get h r)
  let h2 := Heap.write c1.1 c1.2 ((Heap.get c1.1 c1.2).mergeSort upvotesDesc)
  let byUp := Heap.get h2 c1.2
  let out1 := ((byUp.take 10).filter (fun p => 10 < p.upvotes)).map
    (fun p => (⟨"High Upvotes", p, p.upvotes⟩ : Outlier))
  let c2 := Heap.alloc h2 (Heap.get h2 r)
  let h4 := Heap.write c2.1 c2.2 ((Heap.get c2.1 c2.2).mergeSort contentLenDesc)
  let byLen := Heap.get h4 c2.2
  let out2 := ((byLen.take 5).filter (fun p => 5000 < p.content_len)).map
    (fun p => (⟨"Long Content", p, p.content_len⟩ : Outlier))
  (h4, out1 ++ out2)

theorem heap_get_concat (h : Heap) (xs : List Post) :
    Heap.get (h ++ [xs]) h.length = xs := by
  unfold Heap.get
  rw [List.getD_eq_get?, List.get?_concat_length]
  rfl

theorem heap_get_prefix (h : Heap) (rest : Heap) (r : Nat) (hr : r < h.length) :
    Heap.get (h ++ rest) r = Heap.get h r :=
  List.getD_append h rest [] r hr

theorem heap_write_concat (h : Heap) (xs ys : List Post) :
    Heap.write (h ++ [xs]) h.length ys = h ++ [ys] := by
  unfold Heap.write
  rw [List.set_append_right _ _ (le_refl h.length)]
  simp

/-- The final heap of `sortPosts` is the input heap plus one fresh array. -/
theorem sortPosts_heap (h : Heap) (r : Nat) (field : SortField) (asc : Bool) :
    (sortPosts h r field asc).1 =
      h ++ [(Heap.get h r).mergeSort (sortPostsLe field asc)] ∧
    (sortPosts h r field asc).2 = h.length := by
  unfold sortPosts Heap.alloc
  constructor
  · simp only [heap_get_concat, heap_write_concat]
  · rfl

/-- The final heap of `findOutliers` is the input heap plus two fresh
arrays (given a valid corpus reference). -/
theorem findOutliers_heap (h : Heap) (r : Nat) (hr : r < h.length) :
    (findOutliers h r).1 =
      (h ++ [(Heap.get h r).mergeSort upvotesDesc]) ++
        [(Heap.get h r).mergeSort contentLenDesc] := by
  unfold findOutliers Heap.alloc
  simp only [heap_get_concat, heap_write_concat]
  have h2r : Heap.get (h ++ [(Heap.get h r).mergeSort upvotesDesc]) r = Heap.get h r :=
    heap_get_prefix h _ r hr
  rw [h2r]

/-- C10: neither `sortPosts` nor `findOutliers` mutates the corpus array
(or any pre-existing array) — each sorts a fresh copy, the original heap
is a prefix of the result, and the array returned by `sortPosts` is a
permutation (a sorted copy) of the input array. -/
theorem noMutation_c10 (h : Heap) (r : Nat) (field : SortField) (asc : Bool)
    (hr : r < h.length) :
    (sortPosts h r field asc).1.take h.length = h ∧
    Heap.get (sortPosts h r field asc).1 r = Heap.get h r ∧
    (findOutliers h r).1.take h.length = h ∧
    Heap.get (findOutliers h r).1 r = Heap.get h r ∧
    List.Perm (Heap.get (sortPosts h r field asc).1 (sortPosts h r field asc).2)
      (Heap.get h r) := by
  obtain ⟨hs1, hs2⟩ := sortPosts_heap h r field asc
  have hf1 := findOutliers_heap h r hr
  refine ⟨?_, ?_, ?_, ?_, ?_⟩
  · rw [hs1, List.take_left]
  · rw [hs1]
    exact heap_get_prefix h _ r hr
  · rw [hf1, List.append_assoc, List.take_left]
  · rw [hf1, List.append_assoc]
    exact heap_get_prefix h _ r hr
  · rw [hs1, hs2, heap_get_concat]
    exact List.mergeSort_perm _ _

/-- C10 witness at a one-array heap. -/
theorem noMutation_c10_witness :
    (sortPosts [[exA, exB]] 0 SortField.upvotes true).1.take 1 = [[exA, exB]] ∧
    Heap.get (sortPosts [[exA, exB]] 0 SortField.upvotes true).1 0 =
      Heap.get [[exA, exB]] 0 ∧
    (findOutliers [[exA, exB]] 0).1.take 1 = [[exA, exB]] ∧
    Heap.get (findOutliers [[exA, exB]] 0).1 0 = Heap.get [[exA, exB]] 0 ∧
    List.Perm
      (Heap.get (sortPosts [[exA, exB]] 0 SortField.upvotes true).1
        (sortPosts [[exA, exB]] 0 SortField.upvotes true).2)
      (Heap.get [[exA, exB]] 0) :=
  noMutation_c10 [[exA, exB]] 0 SortField.upvotes true (by decide)
